import Mathlib

/-!
Verification of the structure-inference engine of the pdf_to_md repository
(file src/pdf_to_md.py).  Text is modelled as List Char (one element per
Unicode code point, matching Python string semantics).  Font sizes are
modelled as exact rationals; the Python code multiplies an int by the
floating point literals 0.95 / 0.85 / 0.75 and truncates with int(...),
which we model by exact rational arithmetic, n * 95 / 100 etc. in Nat.
Fallible code is modelled with Except; the absent marker None of Python is
modelled with Option.
-/

namespace PdfToMd

/-- Code points accepted by the Python str.isspace predicate (and by the
regex class backslash-s on str patterns); this is the whitespace set used
by str.strip as well. -/
def pyIsSpace (c : Char) : Bool :=
  c = ' ' || c = '\t' || c = '\n' || c = '\x0b' || c = '\x0c' || c = '\r' ||
  c = '\x1c' || c = '\x1d' || c = '\x1e' || c = '\x1f' || c = '\u0085' ||
  c = '\u00a0' || c = '\u1680' || c = '\u2000' || c = '\u2001' || c = '\u2002' ||
  c = '\u2003' || c = '\u2004' || c = '\u2005' || c = '\u2006' || c = '\u2007' ||
  c = '\u2008' || c = '\u2009' || c = '\u200a' || c = '\u2028' || c = '\u2029' ||
  c = '\u202f' || c = '\u205f' || c = '\u3000'

/-- Removes trailing characters satisfying p (the right half of str.strip). -/
def dropTrailing (p : Char → Bool) (cs : List Char) : List Char :=
  (cs.reverse.dropWhile p).reverse

/-- Python str.strip with no argument: remove leading and trailing
whitespace. -/
def pyStrip (cs : List Char) : List Char :=
  dropTrailing pyIsSpace (cs.dropWhile pyIsSpace)

/-- The ten CJK numerals appearing in the regex classes of
CHAPTER_KEYWORDS (pdf_to_md.py lines 15-24). -/
def cjkNum (c : Char) : Bool :=
  c = '一' || c = '二' || c = '三' || c = '四' || c = '五' ||
  c = '六' || c = '七' || c = '八' || c = '九' || c = '十'

/-- The circled digit glyphs of the sixth pattern. -/
def circledNum (c : Char) : Bool :=
  c = '①' || c = '②' || c = '③' || c = '④' || c = '⑤' ||
  c = '⑥' || c = '⑦' || c = '⑧' || c = '⑨' || c = '⑩'

/-- The enumerator terminator class [.、]. -/
def dotOrPause (c : Char) : Bool := c = '.' || c = '、'

/-- The opening parenthesis class of the regexes, full width or ASCII. -/
def openPar (c : Char) : Bool := c = '（' || c = '('

/-- The closing parenthesis class of the regexes, ASCII or full width. -/
def closePar (c : Char) : Bool := c = ')' || c = '）'

/-- Whether the first character of the list satisfies p. -/
def headIs (p : Char → Bool) : List Char → Bool
  | [] => false
  | c :: _ => p c

/-- Anchored match of cls+ followed by one character of follow.  Since in
every use below the follow class is disjoint from cls, greedy regex
matching coincides with taking the maximal cls run. -/
def runThen (cls follow : Char → Bool) (cs : List Char) : Bool :=
  !(cs.takeWhile cls).isEmpty && headIs follow (cs.dropWhile cls)

/-- Regex 第[一二三四五六七八九十]+章 anchored at the start. -/
def matchChapter : List Char → Bool
  | c :: rest => c = '第' && runThen cjkNum (fun d => d = '章') rest
  | [] => false

/-- Regex [一二三四五六七八九十]+、 anchored at the start. -/
def matchCjkEnum (cs : List Char) : Bool :=
  runThen cjkNum (fun d => d = '、') cs

/-- Regex [0-9]+[.、] anchored at the start. -/
def matchDigitDot (cs : List Char) : Bool :=
  runThen Char.isDigit dotOrPause cs

/-- Regex [A-Z][.、] anchored at the start. -/
def matchUpperDot : List Char → Bool
  | a :: b :: _ => a.isUpper && dotOrPause b
  | _ => false

/-- Regex [a-z][.、] anchored at the start. -/
def matchLowerDot : List Char → Bool
  | a :: b :: _ => a.isLower && dotOrPause b
  | _ => false

/-- Regex [①②③④⑤⑥⑦⑧⑨⑩] anchored at the start. -/
def matchCircled (cs : List Char) : Bool :=
  headIs circledNum cs

/-- Regex [（(][一二三四五六七八九十][)）] anchored at the start. -/
def matchParenCjk : List Char → Bool
  | a :: b :: c :: _ => openPar a && cjkNum b && closePar c
  | _ => false

/-- Regex [（(][0-9]+[)）] anchored at the start. -/
def matchParenDigit : List Char → Bool
  | a :: rest => openPar a && runThen Char.isDigit closePar rest
  | [] => false

/-- is_semantic_title (pdf_to_md.py lines 68-100): strip the text, test the
eight lexical patterns in their fixed order (the for-loop followed by the
inner if-chain over the same patterns amounts to first match wins), then
the short-text-ending-in-full-width-colon heuristic. -/
def is_semantic_title (text : List Char) : Bool × Nat :=
  if text.isEmpty then (false, 0)
  else
    let t := pyStrip text
    if matchChapter t then (true, 1)
    else if matchCjkEnum t then (true, 2)
    else if matchDigitDot t then (true, 2)
    else if matchUpperDot t then (true, 3)
    else if matchLowerDot t then (true, 3)
    else if matchCircled t then (true, 3)
    else if matchParenCjk t then (true, 4)
    else if matchParenDigit t then (true, 4)
    else if t.length < 50 && t.getLast? == some '：' then (true, 3)
    else (false, 0)

/-- The font record built by get_font_info (pdf_to_md.py lines 31-42). -/
structure FontInfo where
  name : List Char
  size : ℚ
  is_bold : Bool
  is_italic : Bool
deriving DecidableEq

/-- The per-page percentile thresholds (pdf_to_md.py lines 60-64). -/
structure FontPercentiles where
  h4 : ℚ
  h5 : ℚ
  h6 : ℚ
deriving DecidableEq

/-- get_title_level (pdf_to_md.py lines 102-121).  The Python guard
"font_info and font_info['size'] and font_percentiles" requires the font
record to be present, its size to be nonzero (Python float truthiness) and
the percentile record to be present. -/
def get_title_level (text : List Char) (font_info : Option FontInfo)
    (font_percentiles : Option FontPercentiles) : Nat :=
  if text.isEmpty then 0
  else
    let st := is_semantic_title text
    if st.fst then st.snd
    else
      match font_info, font_percentiles with
      | some fi, some p =>
        if fi.size ≠ 0 then
          if fi.size ≥ p.h4 then 4
          else if fi.size ≥ p.h5 then 5
          else if fi.size ≥ p.h6 then 6
          else 0
        else 0
      | _, _ => 0

/-- The message of the modelled IndexError branch. -/
def indexErrorMsg : String := "IndexError"

/-- analyze_page_font_sizes (pdf_to_md.py lines 44-66) on the list of font
sizes of the words of one page.  Keep the strictly positive sizes, sort
ascending, and read the 95th / 85th / 75th percentile entries.  A would-be
Python IndexError is modelled as the error branch; the ok-none branch is
the Python return None for a page with no positive sizes. -/
def analyze_page_font_sizes (sizes : List ℚ) : Except String (Option FontPercentiles) :=
  let font_sizes := sizes.filter (fun s => decide (0 < s))
  if font_sizes.isEmpty then Except.ok none
  else
    let sorted := List.insertionSort (· ≤ ·) font_sizes
    let total := font_sizes.length
    match sorted.get? (total * 95 / 100), sorted.get? (total * 85 / 100),
        sorted.get? (total * 75 / 100) with
    | some a, some b, some c => Except.ok (some ⟨a, b, c⟩)
    | _, _, _ => Except.error indexErrorMsg

/-- The newline test used by the regexes of clean_text. -/
def isNl (c : Char) : Bool := c = '\n'

/-- The class [ tab] of the third clean_text regex. -/
def spaceTab (c : Char) : Bool := c = ' ' || c = '\t'

/-- The terminal punctuation class of the third clean_text regex. -/
def termPunct (c : Char) : Bool :=
  c = '。' || c = '！' || c = '？' || c = '；'

/-- Number of newline characters in a list. -/
def nlCount (cs : List Char) : Nat := cs.countP isNl

/-- The whitespace run suffix strictly after the last newline: the part of
a matched whitespace run that the first clean_text regex does not consume. -/
def afterLastNl (run : List Char) : List Char :=
  (run.reverse.takeWhile (fun c => !isNl c)).reverse

/-- Left-to-right scanner of re.sub with the first clean_text pattern
(newline, whitespace-star, newline, whitespace-star, newline-plus) and the
replacement of two newlines.  At a position the backtracking engine
matches exactly when the character is a newline and the maximal
whitespace run from it holds at least three newlines, and the greedy match
then extends to the last newline of that run.  The Nat argument is fuel;
every step consumes at least one character, so fuel at least the length of
the list makes the scanner total and faithful. -/
def sub1 : Nat → List Char → List Char
  | 0, cs => cs
  | _ + 1, [] => []
  | n + 1, c :: cs =>
    let run := (c :: cs).takeWhile pyIsSpace
    if isNl c && decide (3 ≤ nlCount run) then
      '\n' :: '\n' :: sub1 n (afterLastNl run ++ (c :: cs).drop run.length)
    else
      c :: sub1 n cs

/-- Whether the first non-space-tab character is a newline: the tail of
the third clean_text pattern after its punctuation capture. -/
def nlAfterSpaces (cs : List Char) : Bool :=
  headIs isNl (cs.dropWhile spaceTab)

/-- Left-to-right scanner of re.sub with the third clean_text pattern
(terminal punctuation, space-tab-star, newline) and the replacement that
keeps the punctuation and writes two newlines (dropping the spaces).
Fueled like sub1. -/
def sub3 : Nat → List Char → List Char
  | 0, cs => cs
  | _ + 1, [] => []
  | n + 1, c :: cs =>
    if termPunct c && nlAfterSpaces cs then
      c :: '\n' :: '\n' :: sub3 n (cs.dropWhile spaceTab).tail
    else
      c :: sub3 n cs

/-- Python str.replace with single-character arguments. -/
def pyReplaceChar (a b : Char) (cs : List Char) : List Char :=
  cs.map (fun c => if c = a then b else c)

/-- clean_text (pdf_to_md.py lines 123-138): collapse whitespace runs of
three or more newlines, apply the four punctuation replaces (each replaces
a code point by the same code point, U+FF0C U+3002 U+FF1A U+FF1B, so each
is the identity), promote terminal punctuation at a line end to a
paragraph break, and strip. -/
def clean_text (text : List Char) : List Char :=
  if text.isEmpty then []
  else
    let t1 := sub1 text.length text
    let t2 := pyReplaceChar '；' '；' (pyReplaceChar '：' '：'
      (pyReplaceChar '。' '。' (pyReplaceChar '，' '，' t1)))
    let t3 := sub3 t2.length t2
    pyStrip t3

/-- One occurrence, anywhere, of terminal punctuation followed by only
spaces and tabs and then a newline: exactly the places where the third
clean_text regex fires. -/
def hasPnl : List Char → Bool
  | [] => false
  | c :: cs => (termPunct c && nlAfterSpaces cs) || hasPnl cs

/-- No position of the list matches the first clean_text regex: no
whitespace run from a newline holds three or more newlines. -/
def noTriple : List Char → Bool
  | [] => true
  | c :: cs =>
    !(isNl c && decide (3 ≤ nlCount ((c :: cs).takeWhile pyIsSpace))) && noTriple cs

/-- format_text_with_style (pdf_to_md.py lines 140-153): wrap in double
asterisks when bold, then in single asterisks when italic. -/
def format_text_with_style (text : List Char) (font_info : Option FontInfo) : List Char :=
  if text.isEmpty then text
  else
    let t1 := match font_info with
      | some fi => if fi.is_bold then '*' :: '*' :: text ++ ['*', '*'] else text
      | none => text
    match font_info with
    | some fi => if fi.is_italic then '*' :: t1 ++ ['*'] else t1
    | none => t1

/-- One text fragment of a page: the text of a word object paired with its
font record (get_font_info output). -/
structure Frag where
  text : List Char
  font : Option FontInfo
deriving DecidableEq

/-- One block produced by process_text_objects.  The Python dict with the
type tag h1 .. h6 is the heading variant carrying the level; the dict with
the type tag paragraph is the paragraph variant. -/
inductive Block where
  | heading (level : Nat) (text : List Char) (font : Option FontInfo)
  | paragraph (text : List Char) (font : Option FontInfo)
deriving DecidableEq

/-- Flushing the paragraph accumulator: nothing when it is empty, else one
paragraph block whose text joins the accumulated texts with one space. -/
def flushPara (para : List (List Char)) (cf : Option FontInfo) : List Block :=
  if para.isEmpty then []
  else [Block.paragraph (List.intercalate [' '] para) cf]

/-- The fragment loop of process_text_objects (pdf_to_md.py lines 164-199)
with its two pieces of loop state: the accumulated paragraph texts and the
font of the fragment that opened the accumulator. -/
def assemble (pct : Option FontPercentiles) :
    List Frag → List (List Char) → Option FontInfo → List Block
  | [], para, cf => flushPara para cf
  | f :: rest, para, cf =>
    if 0 < get_title_level f.text f.font pct then
      flushPara para cf ++
        Block.heading (get_title_level f.text f.font pct) f.text f.font ::
          assemble pct rest [] cf
    else
      assemble pct rest (para ++ [f.text]) (if para.isEmpty then f.font else cf)

/-- process_text_objects (pdf_to_md.py lines 155-201) on the fragment
sequence of a page, with the page percentiles passed explicitly. -/
def process_text_objects (frags : List Frag) (pct : Option FontPercentiles) : List Block :=
  assemble pct frags [] none

/-- convert_to_markdown (pdf_to_md.py lines 203-221): headings render as
level many hash marks, a space, the text and a newline, without any style
wrapping; paragraphs render as the styled text and a blank line. -/
def convert_to_markdown : List Block → List Char
  | [] => []
  | Block.heading lvl t _ :: rest =>
    List.replicate lvl '#' ++ ' ' :: (t ++ '\n' :: convert_to_markdown rest)
  | Block.paragraph t fi :: rest =>
    format_text_with_style t fi ++ '\n' :: '\n' :: convert_to_markdown rest

/-- One raw table cell: Python str or None. -/
abbrev Cell := Option (List Char)

/-- A raw table grid as yielded by the extraction collaborator. -/
abbrev RawTable := List (List Cell)

/-- The cell rendering str(cell) if cell else the empty string: None and
the empty string both render empty. -/
def cellStr : Cell → List Char
  | none => []
  | some s => s

/-- One rendered table row: pipe-space, the cells joined by
space-pipe-space, space-pipe. -/
def rowLine (row : List Cell) : List Char :=
  ('|' :: ' ' :: List.intercalate (' ' :: '|' :: [' ']) (row.map cellStr)) ++ [' ', '|']

/-- The separator row with one dash triple per header cell. -/
def sepLine (n : Nat) : List Char :=
  ('|' :: ' ' :: List.intercalate (' ' :: '|' :: [' '])
    (List.replicate n ['-', '-', '-'])) ++ [' ', '|']

/-- Rendering of one raw table (the body of the loop of extract_tables,
pdf_to_md.py lines 230-247): none when the table has no rows or its first
row is empty, else the header line, the separator sized by the header row,
and one line per nonempty later row, joined by newlines. -/
def renderTable (table : RawTable) : Option (List Char) :=
  match table with
  | [] => none
  | row0 :: rest =>
    if row0.isEmpty then none
    else
      some (List.intercalate ['\n']
        (rowLine row0 :: sepLine row0.length ::
          (rest.filter (fun r => !r.isEmpty)).map rowLine))

/-- extract_tables (pdf_to_md.py lines 223-249) on the raw tables of one
page: render each table that is kept and join with blank lines. -/
def extract_tables (tables : List RawTable) : List Char :=
  if tables.isEmpty then []
  else List.intercalate ('\n' :: ['\n']) (tables.filterMap renderTable)

/-- Decimal digits of a page number. -/
def natChars (n : Nat) : List Char := (Nat.repr n).data

/-- The page heading written for page page_num (zero based in the loop of
convert_pdf_to_md, pdf_to_md.py line 289). -/
def pageHeading (page_num : Nat) : List Char :=
  ("## 第 ").data ++ natChars (page_num + 1) ++ (" 页\n\n").data

/-- The horizontal rule separator written after a page with content. -/
def hrSep : List Char := ("---\n\n").data

/-- The per-page emission of convert_pdf_to_md (pdf_to_md.py lines
287-300): nothing when both the rendered text and the rendered tables are
empty, else the page heading, the text when nonempty, the tables and a
blank line when nonempty, and the separator. -/
def pageOutput (page_num : Nat) (markdown_text tables : List Char) : List Char :=
  if !markdown_text.isEmpty || !tables.isEmpty then
    pageHeading page_num ++
      (if !markdown_text.isEmpty then markdown_text else []) ++
      (if !tables.isEmpty then tables ++ '\n' :: ['\n'] else []) ++
      hrSep
  else []

/-- The existence check of convert_pdf_to_md (pdf_to_md.py lines 259-260),
with the filesystem abstracted as the list of existing paths and a
successful conversion abstracted as unit: a missing path raises
FileNotFoundError before any output is produced. -/
def convert_pdf_to_md (existing : List (List Char)) (pdf_path : List Char) :
    Except (List Char) Unit :=
  if pdf_path ∈ existing then Except.ok ()
  else Except.error (("PDF文件不存在: ").data ++ pdf_path)

/-- The batch loop of process_input_directory (pdf_to_md.py lines
320-325): each file is converted inside try-except, so an error outcome is
recorded and the loop continues with the remaining files. -/
def process_input_directory (existing : List (List Char)) :
    List (List Char) → List (List Char × Except (List Char) Unit)
  | [] => []
  | f :: rest =>
    match convert_pdf_to_md existing f with
    | Except.ok u => (f, Except.ok u) :: process_input_directory existing rest
    | Except.error e => (f, Except.error e) :: process_input_directory existing rest

/-! ## Helper lemmas -/

/-- Stripping an all-whitespace text yields the empty list. -/
lemma pyStrip_all_ws {t : List Char} (h : ∀ c ∈ t, pyIsSpace c = true) :
    pyStrip t = [] := by
  unfold pyStrip
  rw [List.dropWhile_eq_nil_iff.mpr h]
  rfl

/-- On all-whitespace text the semantic title test fails: the stripped
text is empty, no pattern matches it, and it does not end in the full
width colon. -/
lemma is_semantic_title_all_ws {t : List Char} (h : ∀ c ∈ t, pyIsSpace c = true) :
    is_semantic_title t = (false, 0) := by
  have hs : pyStrip t = [] := pyStrip_all_ws h
  unfold is_semantic_title
  split
  · rfl
  · simp only [hs]
    rfl

/-- The batch loop records one outcome per input file, in order. -/
lemma process_input_directory_eq (existing files : List (List Char)) :
    process_input_directory existing files =
      files.map (fun f => (f, convert_pdf_to_md existing f)) := by
  induction files with
  | nil => rfl
  | cons f rest ih =>
    simp only [process_input_directory, List.map_cons]
    cases h : convert_pdf_to_md existing f <;> rw [ih]

/-! ## Claims -/

/-- Claim C2, counterexample.  The claim pairs seven inputs with the eight
levels 1,2,2,2,3,3,4,4 respectively; under that pairing the fourth input
would get level 2, but the Title Classifier returns 3 for it (the
uppercase-letter pattern maps to level 3). -/
theorem claim2_counterexample :
    get_title_level ("A. 概述").data none none = 3 ∧
    get_title_level ("A. 概述").data none none ≠ 2 :=
  ⟨rfl, by decide⟩

/-- Claim C2, amended: the seven listed inputs map to the seven levels
1,2,2,3,3,4,4 respectively, independent of any font attributes or
percentiles supplied. -/
theorem claim2_lexical_levels (fi : Option FontInfo) (pct : Option FontPercentiles) :
    get_title_level ("第三章 总则").data fi pct = 1 ∧
    get_title_level ("二、背景").data fi pct = 2 ∧
    get_title_level ("3. 引言").data fi pct = 2 ∧
    get_title_level ("A. 概述").data fi pct = 3 ∧
    get_title_level ("①说明").data fi pct = 3 ∧
    get_title_level ("（五）附则").data fi pct = 4 ∧
    get_title_level ("（2）条款").data fi pct = 4 :=
  ⟨rfl, rfl, rfl, rfl, rfl, rfl, rfl⟩

/-- Claim C4, counterexample.  A fragment whose text is one space, with a
font of size 20 and page percentiles all 10, is classified as a level 4
heading by the font-size fallback, not as 0: the classifier only returns 0
early for the empty text, and stripping happens after that test. -/
theorem claim4_counterexample :
    get_title_level [' '] (some ⟨[], 20, false, false⟩) (some ⟨10, 10, 10⟩) = 4 ∧
    get_title_level [' '] (some ⟨[], 20, false, false⟩) (some ⟨10, 10, 10⟩) ≠ 0 := by
  constructor
  · rfl
  · decide

/-- Claim C4, amended: the Title Classifier returns 0 for empty text under
every combination of font attributes and percentiles; for nonempty
all-whitespace text it returns 0 whenever the font-size fallback does not
fire, that is when the font record is absent, the font size is zero, or
the percentiles are absent. -/
theorem claim4_empty_ws :
    (∀ fi pct, get_title_level [] fi pct = 0) ∧
    (∀ t fi pct, (∀ c ∈ t, pyIsSpace c = true) →
      (fi = none ∨ (∃ i, fi = some i ∧ i.size = 0) ∨ pct = none) →
      get_title_level t fi pct = 0) := by
  constructor
  · intro fi pct; rfl
  · intro t fi pct hws hcase
    unfold get_title_level
    split
    · rfl
    · rw [is_semantic_title_all_ws hws]
      rcases hcase with rfl | ⟨i, rfl, hsz⟩ | rfl
      · cases pct <;> rfl
      · cases pct with
        | none => rfl
        | some p => simp [hsz]
      · cases fi <;> rfl

/-- Witness for the amended claim C4 at the one-space text with no font
record. -/
theorem claim4_empty_ws_witness :
    get_title_level [' '] none none = 0 :=
  claim4_empty_ws.2 [' '] none none (by decide) (Or.inl rfl)

/-- Claim C9: when no semantic rule matched, the font-size fallback also
requires a nonzero font size, so an absent font record or a size equal to
0 yields 0 even with percentiles available. -/
theorem claim9_size_guard (t : List Char) (fi : Option FontInfo)
    (pct : Option FontPercentiles)
    (hsem : (is_semantic_title t).fst = false)
    (hfi : fi = none ∨ ∃ i, fi = some i ∧ i.size = 0) :
    get_title_level t fi pct = 0 := by
  unfold get_title_level
  split
  · rfl
  · rw [show is_semantic_title t = ((is_semantic_title t).fst, (is_semantic_title t).snd) from rfl, hsem]
    rcases hfi with rfl | ⟨i, rfl, hsz⟩
    · cases pct <;> rfl
    · cases pct with
      | none => rfl
      | some p => simp [hsz]

/-- Witness for claim C9 at a plain text with a zero-size font. -/
theorem claim9_size_guard_witness :
    get_title_level ("hello world").data (some ⟨[], 0, false, false⟩)
      (some ⟨10, 10, 10⟩) = 0 :=
  claim9_size_guard _ _ _ (by decide) (Or.inr ⟨_, rfl, rfl⟩)

/-- Claim C10: a heading block renders as level many hash marks, one
space, the text and a newline, and the rendering is the same for every
font record: no bold or italic wrapping is applied to headings. -/
theorem claim10_heading_plain (lvl : Nat) (t : List Char) (fi fi' : Option FontInfo)
    (rest : List Block) :
    convert_to_markdown (Block.heading lvl t fi :: rest) =
      List.replicate lvl '#' ++ ' ' :: (t ++ '\n' :: convert_to_markdown rest) ∧
    convert_to_markdown (Block.heading lvl t fi :: rest) =
      convert_to_markdown (Block.heading lvl t fi' :: rest) :=
  ⟨rfl, rfl⟩

/-- Claim C6: a raw table with no rows or an empty first row is skipped
entirely; the two-row table with header A B renders as exactly the header
line, the separator sized by the header, and one body line, joined by
newlines; a table whose header row is empty contributes nothing; and a
missing cell renders as the empty string between its pipes. -/
theorem claim6_tables :
    (∀ t : RawTable, (t = [] ∨ t.head? = some []) → renderTable t = none) ∧
    extract_tables [[[some ("A").data, some ("B").data],
        [some ("1").data, some ("2").data]]] =
      ("| A | B |\n| --- | --- |\n| 1 | 2 |").data ∧
    extract_tables [[[], [some ("1").data, some ("2").data]]] = [] ∧
    rowLine [some ("x").data, none, some ("y").data] = ("| x |  | y |").data := by
  refine ⟨?_, rfl, rfl, rfl⟩
  rintro t (rfl | h)
  · rfl
  · cases t with
    | nil => rfl
    | cons r rest =>
      have hr : r = [] := by simpa using h
      subst hr
      rfl

/-- Witness for claim C6 at a table whose first row is empty. -/
theorem claim6_tables_witness :
    renderTable ([[], [some ("1").data]] : RawTable) = none :=
  claim6_tables.1 _ (Or.inr rfl)

/-- Claim C8: a missing input path yields the FileNotFoundError outcome
for that conversion alone, and the batch driver still records one outcome
per input file, in order, so no failure aborts the remaining conversions. -/
theorem claim8_batch (existing files : List (List Char)) (p : List Char)
    (hp : p ∉ existing) :
    convert_pdf_to_md existing p = Except.error (("PDF文件不存在: ").data ++ p) ∧
    (process_input_directory existing files).map Prod.fst = files ∧
    process_input_directory existing files =
      files.map (fun f => (f, convert_pdf_to_md existing f)) := by
  refine ⟨?_, ?_, process_input_directory_eq existing files⟩
  · unfold convert_pdf_to_md
    rw [if_neg hp]
  · rw [process_input_directory_eq, List.map_map]
    exact List.map_id files

/-- Witness for claim C8: an empty filesystem, one missing file followed
by another file; both files get an outcome. -/
theorem claim8_batch_witness :
    convert_pdf_to_md [] (("a.pdf").data) =
      Except.error (("PDF文件不存在: ").data ++ ("a.pdf").data) ∧
    (process_input_directory [] [("a.pdf").data, ("b.pdf").data]).map Prod.fst =
      [("a.pdf").data, ("b.pdf").data] ∧
    process_input_directory [] [("a.pdf").data, ("b.pdf").data] =
      [("a.pdf").data, ("b.pdf").data].map
        (fun f => (f, convert_pdf_to_md [] f)) :=
  claim8_batch [] [("a.pdf").data, ("b.pdf").data] (("a.pdf").data) (by decide)

/-- The page heading always starts with a hash, so it is never empty. -/
lemma pageHeading_ne_nil (n : Nat) : pageHeading n ≠ [] := by
  unfold pageHeading
  intro h
  rw [List.append_eq_nil, List.append_eq_nil] at h
  exact absurd h.1.1 (by decide)

/-- The gate of the per-page emission: empty output exactly when both the
rendered text and the rendered tables are empty, and otherwise the output
starts with the page heading and ends with the separator. -/
lemma pageOutput_gate (n : Nat) (md ts : List Char) :
    (pageOutput n md ts = [] ↔ md = [] ∧ ts = []) ∧
    (md ≠ [] ∨ ts ≠ [] →
      (∃ r, pageOutput n md ts = pageHeading n ++ r) ∧
      (∃ i, pageOutput n md ts = i ++ hrSep)) := by
  by_cases hm : md = []
  · by_cases ht : ts = []
    · subst hm; subst ht
      refine ⟨by simp [pageOutput], ?_⟩
      rintro (h | h) <;> exact absurd rfl h
    · subst hm
      have hcond : (!(([] : List Char)).isEmpty || !ts.isEmpty) = true := by
        simp [List.isEmpty_iff, ht]
      constructor
      · constructor
        · intro h0
          unfold pageOutput at h0
          rw [if_pos hcond] at h0
          simp [List.append_eq_nil, pageHeading_ne_nil n] at h0
        · rintro ⟨-, h⟩; exact absurd h ht
      · intro _
        unfold pageOutput
        rw [if_pos hcond]
        refine ⟨⟨(if !(([] : List Char)).isEmpty then ([] : List Char) else []) ++
          ((if !ts.isEmpty then ts ++ '\n' :: ['\n'] else []) ++ hrSep), ?_⟩, ⟨_, rfl⟩⟩
        simp [List.append_assoc]
  · have hcond : (!md.isEmpty || !ts.isEmpty) = true := by
      simp [List.isEmpty_iff, hm]
    constructor
    · constructor
      · intro h0
        unfold pageOutput at h0
        rw [if_pos hcond] at h0
        simp [List.append_eq_nil, pageHeading_ne_nil n] at h0
      · rintro ⟨h, -⟩; exact absurd h hm
    · intro _
      unfold pageOutput
      rw [if_pos hcond]
      refine ⟨⟨(if !md.isEmpty then md else []) ++
        ((if !ts.isEmpty then ts ++ '\n' :: ['\n'] else []) ++ hrSep), ?_⟩, ⟨_, rfl⟩⟩
      simp [List.append_assoc]

/-- Claim C7: a page whose assembled blocks render to the empty string and
whose table transcription is empty emits nothing, not even the page
heading or the separator; and whenever the page produced nonempty text or
table output, the emission starts with the page-number heading and ends
with the horizontal-rule separator. -/
theorem claim7_page_gate (n : Nat) (blocks : List Block) (tabs : List RawTable) :
    (pageOutput n (convert_to_markdown blocks) (extract_tables tabs) = [] ↔
      convert_to_markdown blocks = [] ∧ extract_tables tabs = []) ∧
    (convert_to_markdown blocks ≠ [] ∨ extract_tables tabs ≠ [] →
      (∃ r, pageOutput n (convert_to_markdown blocks) (extract_tables tabs) =
        pageHeading n ++ r) ∧
      (∃ i, pageOutput n (convert_to_markdown blocks) (extract_tables tabs) =
        i ++ hrSep)) :=
  pageOutput_gate n (convert_to_markdown blocks) (extract_tables tabs)

/-- Witness for claim C7: the empty page emits nothing, and a page with a
single heading block emits the heading-led output. -/
theorem claim7_page_gate_witness :
    pageOutput 0 (convert_to_markdown []) (extract_tables []) = [] ∧
    (∃ r, pageOutput 0 (convert_to_markdown [Block.heading 1 ('一' :: []) none])
        (extract_tables []) = pageHeading 0 ++ r) :=
  ⟨(claim7_page_gate 0 [] []).1.mpr ⟨rfl, rfl⟩,
    ((claim7_page_gate 0 [Block.heading 1 ('一' :: []) none] []).2
      (Or.inl (by decide))).1⟩

/-- For a nonempty list the three percentile indices are in range and
ordered, since 75, 85 and 95 percent of n, truncated, are below n and
monotone in the factor. -/
lemma claim1_idx_lt {n : Nat} (hn : 0 < n) (k : Nat) (hk : k < 100) :
    n * k / 100 < n := by
  rw [Nat.div_lt_iff_lt_mul (by omega : 0 < 100)]
  exact mul_lt_mul_of_pos_left hk hn

/-- Claim C1: on a nonempty list of strictly positive sizes the analyzer
takes no error branch (the modelled IndexError cannot fire) and yields
thresholds with h4 at least h5 at least h6; on a list with no positive
size it yields the absent marker. -/
theorem claim1_analyzer (sizes : List ℚ) :
    (sizes ≠ [] → (∀ s ∈ sizes, 0 < s) →
      ∃ p : FontPercentiles, analyze_page_font_sizes sizes = Except.ok (some p) ∧
        p.h6 ≤ p.h5 ∧ p.h5 ≤ p.h4) ∧
    ((∀ s ∈ sizes, ¬ 0 < s) → analyze_page_font_sizes sizes = Except.ok none) := by
  constructor
  · intro hne hpos
    have hf : sizes.filter (fun s => decide (0 < s)) = sizes :=
      List.filter_eq_self.mpr (fun a ha => decide_eq_true (hpos a ha))
    have hne2 : sizes.isEmpty = false := by
      cases sizes with
      | nil => exact absurd rfl hne
      | cons a l => rfl
    simp only [analyze_page_font_sizes, hf, hne2, Bool.false_eq_true, if_false]
    have hn : 0 < sizes.length := List.length_pos.mpr hne
    have hlen : (List.insertionSort (· ≤ ·) sizes).length = sizes.length :=
      List.length_insertionSort (· ≤ ·) sizes
    have h95 : sizes.length * 95 / 100 < (List.insertionSort (· ≤ ·) sizes).length := by
      rw [hlen]; exact claim1_idx_lt hn 95 (by omega)
    have h85 : sizes.length * 85 / 100 < (List.insertionSort (· ≤ ·) sizes).length := by
      rw [hlen]; exact claim1_idx_lt hn 85 (by omega)
    have h75 : sizes.length * 75 / 100 < (List.insertionSort (· ≤ ·) sizes).length := by
      rw [hlen]; exact claim1_idx_lt hn 75 (by omega)
    rw [List.get?_eq_get h95, List.get?_eq_get h85, List.get?_eq_get h75]
    refine ⟨_, rfl, ?_, ?_⟩
    · exact List.Sorted.rel_get_of_le (List.sorted_insertionSort (· ≤ ·) sizes)
        (by
          show sizes.length * 75 / 100 ≤ sizes.length * 85 / 100
          exact Nat.div_le_div_right (by omega))
    · exact List.Sorted.rel_get_of_le (List.sorted_insertionSort (· ≤ ·) sizes)
        (by
          show sizes.length * 85 / 100 ≤ sizes.length * 95 / 100
          exact Nat.div_le_div_right (by omega))
  · intro hnone
    have hf : sizes.filter (fun s => decide (0 < s)) = [] :=
      List.filter_eq_nil_iff.mpr (fun a ha => by simpa using hnone a ha)
    simp [analyze_page_font_sizes, hf]

/-- Witness for claim C1 at a three-element list and at the empty list. -/
theorem claim1_analyzer_witness :
    (∃ p : FontPercentiles, analyze_page_font_sizes [2, 1, 3] = Except.ok (some p) ∧
      p.h6 ≤ p.h5 ∧ p.h5 ≤ p.h4) ∧
    analyze_page_font_sizes [] = Except.ok none :=
  ⟨(claim1_analyzer [2, 1, 3]).1 (by decide) (by decide),
    (claim1_analyzer []).2 (by decide)⟩

/-- The font of the first fragment of a group, none for the empty group. -/
def firstFont : List Frag → Option FontInfo
  | [] => none
  | a :: _ => a.font

/-- Grouping of the fragment stream: each heading fragment forms its own
singleton group, and maximal runs of non-heading fragments form paragraph
groups; acc carries the paragraph run being accumulated. -/
def groupGo (pct : Option FontPercentiles) : List Frag → List Frag → List (List Frag)
  | [], acc => if acc.isEmpty then [] else [acc]
  | f :: rest, acc =>
    if 0 < get_title_level f.text f.font pct then
      (if acc.isEmpty then [] else [acc]) ++ [f] :: groupGo pct rest []
    else
      groupGo pct rest (acc ++ [f])

/-- The partition of a fragment stream into heading singletons and
paragraph runs. -/
def groupFrags (pct : Option FontPercentiles) (frags : List Frag) : List (List Frag) :=
  groupGo pct frags []

/-- The block a group renders to: a heading for a singleton heading group,
else a paragraph joining the texts with single spaces, styled by the first
fragment of the group. -/
def groupBlock (pct : Option FontPercentiles) : List Frag → Block
  | [f] =>
    if 0 < get_title_level f.text f.font pct then
      Block.heading (get_title_level f.text f.font pct) f.text f.font
    else Block.paragraph f.text f.font
  | g => Block.paragraph (List.intercalate [' '] (g.map Frag.text)) (firstFont g)

/-- Joining a one-element list of texts changes nothing. -/
lemma intercalate_single (sep x : List Char) : List.intercalate sep [x] = x := by
  simp [List.intercalate]

/-- Flushing the accumulator produces exactly the rendering of the
accumulated group, when the accumulator holds only non-heading fragments
and the recorded font is the font of its first fragment. -/
lemma flushPara_groups (pct : Option FontPercentiles) (acc : List Frag)
    (cf : Option FontInfo)
    (hz : ∀ a ∈ acc, get_title_level a.text a.font pct = 0)
    (hcf : acc = [] ∨ cf = firstFont acc) :
    flushPara (acc.map Frag.text) cf =
      (if acc.isEmpty then [] else [acc]).map (groupBlock pct) := by
  cases acc with
  | nil => rfl
  | cons a rest =>
    rcases hcf with h | h
    · exact absurd h (by simp)
    · cases rest with
      | nil =>
        have h0 : get_title_level a.text a.font pct = 0 := hz a (by simp)
        simp [flushPara, groupBlock, h0, h, firstFont, intercalate_single]
      | cons b t =>
        simp [flushPara, groupBlock, h, firstFont]

/-- The loop of process_text_objects computes the rendering of the
grouping, given the loop-state invariant. -/
lemma assemble_groups (pct : Option FontPercentiles) :
    ∀ (frags acc : List Frag) (cf : Option FontInfo),
      (∀ a ∈ acc, get_title_level a.text a.font pct = 0) →
      (acc = [] ∨ cf = firstFont acc) →
      assemble pct frags (acc.map Frag.text) cf =
        (groupGo pct frags acc).map (groupBlock pct) := by
  intro frags
  induction frags with
  | nil =>
    intro acc cf hz hcf
    exact flushPara_groups pct acc cf hz hcf
  | cons f rest ih =>
    intro acc cf hz hcf
    by_cases hf : 0 < get_title_level f.text f.font pct
    · simp only [assemble, groupGo, if_pos hf, List.map_append, List.map_cons]
      rw [flushPara_groups pct acc cf hz hcf]
      have hgb : groupBlock pct [f] =
          Block.heading (get_title_level f.text f.font pct) f.text f.font := by
        simp [groupBlock, hf]
      rw [hgb]
      have h2 := ih [] cf (by simp) (Or.inl rfl)
      simp only [List.map_nil] at h2
      rw [h2]
    · simp only [assemble, groupGo, if_neg hf]
      have hEmpty : (acc.map Frag.text).isEmpty = acc.isEmpty := by
        cases acc <;> rfl
      have hmap : acc.map Frag.text ++ [f.text] = (acc ++ [f]).map Frag.text := by
        simp
      rw [hEmpty, hmap]
      apply ih
      · intro a ha
        rcases List.mem_append.mp ha with h | h
        · exact hz a h
        · have : a = f := by simpa using h
          subst this
          omega
      · right
        cases acc with
        | nil => simp [firstFont]
        | cons a t =>
          rcases hcf with h | h
          · exact absurd h (by simp)
          · simp [firstFont] at h
            simp [firstFont, h]

/-- The grouping partitions the stream: the concatenation of the groups is
the accumulator followed by the remaining fragments. -/
lemma groupGo_join (pct : Option FontPercentiles) :
    ∀ (frags acc : List Frag), (groupGo pct frags acc).join = acc ++ frags := by
  intro frags
  induction frags with
  | nil =>
    intro acc
    by_cases h : acc.isEmpty
    · have ha : acc = [] := by simpa [List.isEmpty_iff] using h
      subst ha
      simp [groupGo]
    · simp [groupGo, h]
  | cons f rest ih =>
    intro acc
    by_cases hf : 0 < get_title_level f.text f.font pct
    · by_cases h : acc.isEmpty
      · have ha : acc = [] := by simpa [List.isEmpty_iff] using h
        subst ha
        simp [groupGo, hf, ih []]
      · simp [groupGo, hf, h, ih []]
    · simp [groupGo, hf, ih (acc ++ [f])]

/-- Every group of the partition is nonempty and is either a heading
singleton or a run of non-heading fragments. -/
lemma groupGo_conds (pct : Option FontPercentiles) :
    ∀ (frags acc : List Frag),
      (∀ a ∈ acc, get_title_level a.text a.font pct = 0) →
      ∀ g ∈ groupGo pct frags acc, g ≠ [] ∧
        ((∃ f, g = [f] ∧ 0 < get_title_level f.text f.font pct) ∨
          (∀ a ∈ g, get_title_level a.text a.font pct = 0)) := by
  intro frags
  induction frags with
  | nil =>
    intro acc hz g hg
    by_cases h : acc.isEmpty
    · simp [groupGo, h] at hg
    · simp [groupGo, h] at hg
      subst hg
      exact ⟨by simpa [List.isEmpty_iff] using h, Or.inr hz⟩
  | cons f rest ih =>
    intro acc hz g hg
    by_cases hf : 0 < get_title_level f.text f.font pct
    · simp only [groupGo, if_pos hf, List.mem_append, List.mem_cons] at hg
      rcases hg with hg | hg | hg
      · by_cases h : acc.isEmpty
        · simp [h] at hg
        · simp [h] at hg
          subst hg
          exact ⟨by simpa [List.isEmpty_iff] using h, Or.inr hz⟩
      · subst hg
        exact ⟨by simp, Or.inl ⟨f, rfl, hf⟩⟩
      · exact ih [] (by simp) g hg
    · simp only [groupGo, if_neg hf] at hg
      refine ih (acc ++ [f]) ?_ g hg
      intro a ha
      rcases List.mem_append.mp ha with h | h
      · exact hz a h
      · have : a = f := by simpa using h
        subst this
        omega

/-- Claim C5: the Document Assembler emits blocks in fragment order with
no fragment dropped or duplicated: the empty stream yields no blocks, a
single heading fragment yields exactly one heading block and no paragraph
block, and in general the stream partitions into consecutive nonempty
groups (heading singletons and non-heading runs, in order) whose
concatenation is the stream and whose rendering, one block per group, is
exactly the output. -/
theorem claim5_assembler :
    (∀ pct, process_text_objects [] pct = []) ∧
    (∀ pct (f : Frag), 0 < get_title_level f.text f.font pct →
      process_text_objects [f] pct =
        [Block.heading (get_title_level f.text f.font pct) f.text f.font]) ∧
    (∀ pct frags,
      (groupFrags pct frags).join = frags ∧
      process_text_objects frags pct = (groupFrags pct frags).map (groupBlock pct) ∧
      ∀ g ∈ groupFrags pct frags, g ≠ [] ∧
        ((∃ f, g = [f] ∧ 0 < get_title_level f.text f.font pct) ∨
          (∀ a ∈ g, get_title_level a.text a.font pct = 0))) := by
  refine ⟨fun pct => rfl, ?_, ?_⟩
  · intro pct f hf
    simp [process_text_objects, assemble, flushPara, hf]
  · intro pct frags
    refine ⟨groupGo_join pct frags [], ?_, groupGo_conds pct frags [] (by simp)⟩
    have h := assemble_groups pct frags [] none (by simp) (Or.inl rfl)
    simpa [process_text_objects, groupFrags] using h

/-- Witness for claim C5 at a single chapter-heading fragment. -/
theorem claim5_assembler_witness :
    process_text_objects [⟨("第一章 总则").data, none⟩] none =
      [Block.heading 1 (("第一章 总则").data) none] :=
  claim5_assembler.2.1 none ⟨("第一章 总则").data, none⟩ (by decide)

/-! ## clean_text lemmas -/

/-- A Boolean whose negation is true is false. -/
lemma bool_neg_true {b : Bool} (h : (!b) = true) : b = false := by
  cases b
  · rfl
  · cases h

/-- The first scanner leaves the empty list alone at any fuel. -/
lemma sub1_nil : ∀ n, sub1 n [] = []
  | 0 => rfl
  | _ + 1 => rfl

/-- The third scanner leaves the empty list alone at any fuel. -/
lemma sub3_nil : ∀ n, sub3 n [] = []
  | 0 => rfl
  | _ + 1 => rfl

/-- The no-match step of the first scanner. -/
lemma sub1_cons_neg {c : Char} {cs : List Char} {n : Nat}
    (h : (isNl c && decide (3 ≤ nlCount ((c :: cs).takeWhile pyIsSpace))) = false) :
    sub1 (n + 1) (c :: cs) = c :: sub1 n cs := by
  simp only [sub1]
  rw [if_neg]
  simp [h]

/-- The match step of the first scanner. -/
lemma sub1_cons_pos {c : Char} {cs : List Char} {n : Nat}
    (h1 : isNl c = true) (h2 : 3 ≤ nlCount ((c :: cs).takeWhile pyIsSpace)) :
    sub1 (n + 1) (c :: cs) = '\n' :: '\n' ::
      sub1 n (afterLastNl ((c :: cs).takeWhile pyIsSpace) ++
        (c :: cs).drop ((c :: cs).takeWhile pyIsSpace).length) := by
  simp only [sub1]
  rw [if_pos]
  simp [h1, h2]

/-- The no-match step of the third scanner. -/
lemma sub3_cons_neg {c : Char} {cs : List Char} {n : Nat}
    (h : (termPunct c && nlAfterSpaces cs) = false) :
    sub3 (n + 1) (c :: cs) = c :: sub3 n cs := by
  simp only [sub3]
  rw [if_neg]
  simp [h]

/-- Replacing a character by itself changes nothing: the four punctuation
replaces of clean_text are identities. -/
lemma pyReplaceChar_self (a : Char) (cs : List Char) : pyReplaceChar a a cs = cs := by
  unfold pyReplaceChar
  have h : (fun c : Char => if c = a then a else c) = fun c => c := by
    funext c
    by_cases hc : c = a
    · simp [hc]
    · simp [hc]
  rw [h, List.map_id']

/-- clean_text written without the identity replaces. -/
lemma clean_text_eq (x : List Char) :
    clean_text x = pyStrip (sub3 (sub1 x.length x).length (sub1 x.length x)) := by
  unfold clean_text
  by_cases h : x.isEmpty = true
  · have hx : x = [] := List.isEmpty_iff.mp h
    subst hx
    rfl
  · rw [if_neg h]
    simp only [pyReplaceChar_self]

/-- On text where the third pattern never occurs, the third scanner is the
identity at any fuel. -/
lemma sub3_id : ∀ (n : Nat) (cs : List Char), hasPnl cs = false → sub3 n cs = cs := by
  intro n
  induction n with
  | zero => intro cs _; rfl
  | succ n ih =>
    intro cs h
    cases cs with
    | nil => rfl
    | cons c cs' =>
      rw [hasPnl] at h
      obtain ⟨h1, h2⟩ := Bool.or_eq_false_iff.mp h
      rw [sub3_cons_neg h1, ih cs' h2]

/-- On text where the first pattern never matches, the first scanner is
the identity at any fuel. -/
lemma sub1_id : ∀ (n : Nat) (cs : List Char), noTriple cs = true → sub1 n cs = cs := by
  intro n
  induction n with
  | zero => intro cs _; rfl
  | succ n ih =>
    intro cs h
    cases cs with
    | nil => rfl
    | cons c cs' =>
      rw [noTriple, Bool.and_eq_true] at h
      obtain ⟨h1, h2⟩ := h
      rw [sub1_cons_neg (bool_neg_true h1), ih cs' h2]

/-- A newline character is the character with code 10. -/
lemma isNl_char {c : Char} (h : isNl c = true) : c = '\n' :=
  of_decide_eq_true h

/-- Looking for a newline after spaces and tabs skips a space or tab. -/
lemma nlAfterSpaces_cons_pos {c : Char} {cs : List Char} (h : spaceTab c = true) :
    nlAfterSpaces (c :: cs) = nlAfterSpaces cs := by
  unfold nlAfterSpaces
  rw [List.dropWhile_cons_of_pos h]

/-- Looking for a newline after spaces and tabs stops at any other
character. -/
lemma nlAfterSpaces_cons_neg {c : Char} {cs : List Char} (h : spaceTab c = false) :
    nlAfterSpaces (c :: cs) = isNl c := by
  unfold nlAfterSpaces
  rw [List.dropWhile_cons_of_neg (by simp [h])]
  rfl

/-- The first scanner cannot create a leading newline modulo spaces and
tabs where there was none. -/
lemma nlAfterSpaces_sub1 : ∀ (n : Nat) (cs : List Char),
    nlAfterSpaces cs = false → nlAfterSpaces (sub1 n cs) = false := by
  intro n
  induction n with
  | zero => intro cs h; exact h
  | succ n ih =>
    intro cs h
    cases cs with
    | nil => exact h
    | cons c cs' =>
      by_cases hnl : isNl c = true
      · exfalso
        have hc : c = '\n' := isNl_char hnl
        subst hc
        rw [nlAfterSpaces_cons_neg (by decide)] at h
        simp [isNl] at h
      · have hnl' : isNl c = false := by
          revert hnl; cases isNl c <;> simp
        rw [sub1_cons_neg (by simp [hnl'])]
        by_cases hsp : spaceTab c = true
        · rw [nlAfterSpaces_cons_pos hsp] at h
          rw [nlAfterSpaces_cons_pos hsp]
          exact ih cs' h
        · have hsp' : spaceTab c = false := by
            revert hsp; cases spaceTab c <;> simp
          rw [nlAfterSpaces_cons_neg hsp']
          exact hnl'

/-- The third pattern is absent from a suffix when absent from the whole. -/
lemma hasPnl_append_right (l1 : List Char) {l2 : List Char}
    (h : hasPnl (l1 ++ l2) = false) : hasPnl l2 = false := by
  induction l1 with
  | nil => exact h
  | cons a l1' ih =>
    rw [List.cons_append, hasPnl] at h
    exact ih (Bool.or_eq_false_iff.mp h).2

/-- The part of a run after its last newline is a suffix of the run and is
newline free. -/
lemma afterLastNl_decomp (run : List Char) :
    ∃ σ, run = σ ++ afterLastNl run ∧ ∀ x ∈ afterLastNl run, isNl x = false := by
  refine ⟨(run.reverse.dropWhile (fun c => !isNl c)).reverse, ?_, ?_⟩
  · unfold afterLastNl
    conv_lhs => rw [← List.reverse_reverse run,
      ← List.takeWhile_append_dropWhile (fun c => !isNl c) run.reverse]
    rw [List.reverse_append]
  · intro x hx
    unfold afterLastNl at hx
    rw [List.mem_reverse] at hx
    have := List.mem_takeWhile_imp hx
    simpa using this

/-- Dropping the length of the maximal prefix run yields the remainder. -/
lemma drop_takeWhile_length (p : Char → Bool) (l : List Char) :
    l.drop (l.takeWhile p).length = l.dropWhile p := by
  calc l.drop (l.takeWhile p).length
      = (l.takeWhile p ++ l.dropWhile p).drop (l.takeWhile p).length := by
        exact congrArg (fun z => List.drop (l.takeWhile p).length z)
          (List.takeWhile_append_dropWhile p l).symm
    _ = l.dropWhile p := List.drop_left _ _

/-- The first scanner cannot create an occurrence of the third pattern. -/
lemma hasPnl_sub1 : ∀ (n : Nat) (cs : List Char),
    hasPnl cs = false → hasPnl (sub1 n cs) = false := by
  intro n
  induction n with
  | zero => intro cs h; exact h
  | succ n ih =>
    intro cs h
    cases cs with
    | nil => exact h
    | cons c cs' =>
      rw [hasPnl] at h
      obtain ⟨h1, h2⟩ := Bool.or_eq_false_iff.mp h
      by_cases hcond :
          (isNl c && decide (3 ≤ nlCount ((c :: cs').takeWhile pyIsSpace))) = true
      · rw [Bool.and_eq_true] at hcond
        obtain ⟨hnl, hcnt⟩ := hcond
        rw [sub1_cons_pos hnl (of_decide_eq_true hcnt)]
        rw [hasPnl, hasPnl]
        simp only [show termPunct '\n' = false from rfl, Bool.false_and, Bool.false_or]
        apply ih
        obtain ⟨σ, hσ, -⟩ := afterLastNl_decomp ((c :: cs').takeWhile pyIsSpace)
        apply hasPnl_append_right σ
        rw [drop_takeWhile_length, ← List.append_assoc, ← hσ,
          List.takeWhile_append_dropWhile]
        rw [hasPnl]
        exact Bool.or_eq_false_iff.mpr ⟨h1, h2⟩
      · have hcf : (isNl c &&
            decide (3 ≤ nlCount ((c :: cs').takeWhile pyIsSpace))) = false := by
          revert hcond
          cases (isNl c && decide (3 ≤ nlCount ((c :: cs').takeWhile pyIsSpace))) <;> simp
        rw [sub1_cons_neg hcf, hasPnl]
        refine Bool.or_eq_false_iff.mpr ⟨?_, ih cs' h2⟩
        by_cases htp : termPunct c = true
        · have hnas : nlAfterSpaces cs' = false := by
            rcases Bool.and_eq_false_iff.mp h1 with hx | hx
            · rw [htp] at hx; cases hx
            · exact hx
          rw [htp, nlAfterSpaces_sub1 n cs' hnas]
          rfl
        · have htp' : termPunct c = false := by
            revert htp; cases termPunct c <;> simp
          rw [htp']
          rfl

/-- A non-whitespace character is not a newline. -/
lemma isNl_false_of_not_ws {d : Char} (hd : pyIsSpace d = false) : isNl d = false := by
  by_cases h : isNl d = true
  · have hc : d = '\n' := isNl_char h
    subst hc
    cases hd
  · revert h; cases isNl d <;> simp

/-- The head left by dropWhile fails the predicate. -/
lemma head_dropWhile_false {p : Char → Bool} {d : Char} {t' : List Char} :
    ∀ {ll : List Char}, ll.dropWhile p = d :: t' → p d = false := by
  intro ll
  induction ll with
  | nil => intro h; cases h
  | cons a l' ih =>
    intro h
    by_cases hp : p a = true
    · rw [List.dropWhile_cons_of_pos hp] at h
      exact ih h
    · rw [List.dropWhile_cons_of_neg hp] at h
      obtain ⟨rfl, -⟩ := List.cons.inj h
      revert hp; cases p a <;> simp

/-- takeWhile walks through a prefix whose members all satisfy p. -/
lemma takeWhile_append_all {p : Char → Bool} : ∀ {s : List Char} (t : List Char),
    (∀ x ∈ s, p x = true) → (s ++ t).takeWhile p = s ++ t.takeWhile p := by
  intro s
  induction s with
  | nil => intro t _; rfl
  | cons a s' ih =>
    intro t h
    rw [List.cons_append, List.takeWhile_cons_of_pos (h a (by simp)),
      ih t (fun x hx => h x (by simp [hx]))]
    rfl

/-- The first scanner copies a newline-free prefix verbatim. -/
lemma sub1_skip_nlfree : ∀ (s r : List Char) (N : Nat),
    (∀ c ∈ s, isNl c = false) → s.length ≤ N →
    sub1 N (s ++ r) = s ++ sub1 (N - s.length) r := by
  intro s
  induction s with
  | nil => intro r N _ _; simp
  | cons a s' ih =>
    intro r N h hN
    obtain ⟨N', rfl⟩ : ∃ N', N = N' + 1 := by
      cases N with
      | zero => simp at hN
      | succ n => exact ⟨n, rfl⟩
    rw [List.cons_append, sub1_cons_neg (by simp [h a (by simp)]),
      ih r N' (fun c hc => h c (by simp [hc])) (by simpa using hN)]
    simp [Nat.succ_sub_succ]

/-- When the leading whitespace run holds at most two newlines the first
scanner copies it verbatim and continues after it. -/
lemma sub1_skip_ws2 : ∀ (l : List Char) (N : Nat),
    nlCount (l.takeWhile pyIsSpace) ≤ 2 → (l.takeWhile pyIsSpace).length ≤ N →
    sub1 N l = l.takeWhile pyIsSpace ++
      sub1 (N - (l.takeWhile pyIsSpace).length) (l.dropWhile pyIsSpace) := by
  intro l
  induction l with
  | nil => intro N _ _; simp [sub1_nil]
  | cons a l' ih =>
    intro N hcnt hN
    by_cases hws : pyIsSpace a = true
    · rw [List.takeWhile_cons_of_pos hws] at hcnt hN ⊢
      rw [List.dropWhile_cons_of_pos hws]
      obtain ⟨N', rfl⟩ : ∃ N', N = N' + 1 := by
        cases N with
        | zero => simp at hN
        | succ n => exact ⟨n, rfl⟩
      have hcnt2 : nlCount (l'.takeWhile pyIsSpace) ≤ 2 := by
        have hc := List.countP_cons isNl a (l'.takeWhile pyIsSpace)
        unfold nlCount at hcnt ⊢
        by_cases hna : isNl a = true
        · rw [hc, if_pos hna] at hcnt; omega
        · rw [hc, if_neg hna] at hcnt; omega
      have hcond : (isNl a &&
          decide (3 ≤ nlCount ((a :: l').takeWhile pyIsSpace))) = false := by
        rw [List.takeWhile_cons_of_pos hws]
        have : decide (3 ≤ nlCount (a :: l'.takeWhile pyIsSpace)) = false :=
          decide_eq_false (by omega)
        rw [this, Bool.and_false]
      rw [sub1_cons_neg hcond,
        ih N' hcnt2 (by simpa using hN)]
      simp [Nat.succ_sub_succ]
    · rw [List.takeWhile_cons_of_neg hws, List.dropWhile_cons_of_neg hws]
      simp

/-- Prepending a whitespace block with at most two newlines to a text that
is empty or starts with non-whitespace preserves the absence of
three-newline runs. -/
lemma noTriple_append_ws : ∀ (s t : List Char),
    (∀ x ∈ s, pyIsSpace x = true) → nlCount s ≤ 2 →
    (t = [] ∨ ∃ d t', t = d :: t' ∧ pyIsSpace d = false) →
    noTriple t = true → noTriple (s ++ t) = true := by
  intro s
  induction s with
  | nil => intro t _ _ _ h; exact h
  | cons a s' ih =>
    intro t hws hcnt ht h
    rw [List.cons_append, noTriple, Bool.and_eq_true]
    constructor
    · by_cases hna : isNl a = true
      · have hrun : ((a :: (s' ++ t)).takeWhile pyIsSpace) = a :: (s' ++ t.takeWhile pyIsSpace) := by
          rw [List.takeWhile_cons_of_pos (hws a (by simp)),
            takeWhile_append_all t (fun x hx => hws x (by simp [hx]))]
        have htw : t.takeWhile pyIsSpace = [] := by
          rcases ht with rfl | ⟨d, t', rfl, hd⟩
          · rfl
          · exact List.takeWhile_cons_of_neg (by simp [hd])
        rw [hrun, htw, List.append_nil]
        have : decide (3 ≤ nlCount (a :: s')) = false := decide_eq_false (by omega)
        simp [this]
      · have : isNl a = false := by revert hna; cases isNl a <;> simp
        simp [this]
    · apply ih t (fun x hx => hws x (by simp [hx])) ?_ ht h
      have hc := List.countP_cons isNl a s'
      unfold nlCount at hcnt ⊢
      by_cases hna : isNl a = true
      · rw [hc, if_pos hna] at hcnt; omega
      · rw [hc, if_neg hna] at hcnt; omega

/-- The output of the first scanner never matches the first pattern again:
each whitespace run of the output holds at most two newlines. -/
lemma noTriple_sub1 : ∀ (n N : Nat) (cs : List Char),
    cs.length ≤ n → cs.length ≤ N → noTriple (sub1 N cs) = true := by
  intro n
  induction n using Nat.strong_induction_on with
  | _ n IH =>
    intro N cs hn hN
    have hsplit : cs.takeWhile pyIsSpace ++ cs.dropWhile pyIsSpace = cs :=
      List.takeWhile_append_dropWhile _ _
    have htw_ws : ∀ x ∈ cs.takeWhile pyIsSpace, pyIsSpace x = true :=
      fun x hx => List.mem_takeWhile_imp hx
    have hlen_split : (cs.takeWhile pyIsSpace).length +
        (cs.dropWhile pyIsSpace).length = cs.length := by
      conv_rhs => rw [← hsplit]
      rw [List.length_append]
    have hrest : cs.dropWhile pyIsSpace = [] ∨
        ∃ d t', cs.dropWhile pyIsSpace = d :: t' ∧ pyIsSpace d = false := by
      cases hd : cs.dropWhile pyIsSpace with
      | nil => exact Or.inl rfl
      | cons d t' => exact Or.inr ⟨d, t', rfl, head_dropWhile_false hd⟩
    by_cases hcnt : nlCount (cs.takeWhile pyIsSpace) ≤ 2
    · rw [sub1_skip_ws2 cs N hcnt
        (le_trans (List.Sublist.length_le (List.takeWhile_sublist _)) hN)]
      rcases hrest with hr | ⟨d, t', hr, hd⟩
      · rw [hr, sub1_nil]
        exact noTriple_append_ws _ [] htw_ws hcnt (Or.inl rfl) rfl
      · rw [hr]
        have hlen2 : (cs.takeWhile pyIsSpace).length + (t'.length + 1) = cs.length := by
          rw [hr] at hlen_split
          simpa [List.length_cons] using hlen_split
        obtain ⟨M', hM'⟩ : ∃ M', N - (cs.takeWhile pyIsSpace).length = M' + 1 :=
          ⟨N - (cs.takeWhile pyIsSpace).length - 1, by omega⟩
        rw [hM', sub1_cons_neg (by simp [isNl_false_of_not_ws hd])]
        apply noTriple_append_ws _ _ htw_ws hcnt (Or.inr ⟨d, _, rfl, hd⟩)
        rw [noTriple, Bool.and_eq_true]
        refine ⟨by simp [isNl_false_of_not_ws hd], ?_⟩
        exact IH t'.length (by omega) M' t' le_rfl (by omega)
    · have hcnt3 : 3 ≤ nlCount (cs.takeWhile pyIsSpace) := by omega
      have hsp0_nl : ∀ x ∈ (cs.takeWhile pyIsSpace).takeWhile (fun c => !isNl c),
          isNl x = false :=
        fun x hx => bool_neg_true (by simpa using List.mem_takeWhile_imp hx)
      have hsub0 : List.Sublist ((cs.takeWhile pyIsSpace).takeWhile (fun c => !isNl c))
          (cs.takeWhile pyIsSpace) := List.takeWhile_sublist _
      have hsp0_ws : ∀ x ∈ (cs.takeWhile pyIsSpace).takeWhile (fun c => !isNl c),
          pyIsSpace x = true :=
        fun x hx => htw_ws x (hsub0.mem hx)
      have htwsplit : (cs.takeWhile pyIsSpace).takeWhile (fun c => !isNl c) ++
          (cs.takeWhile pyIsSpace).dropWhile (fun c => !isNl c) =
            cs.takeWhile pyIsSpace :=
        List.takeWhile_append_dropWhile _ _
      cases hnr : (cs.takeWhile pyIsSpace).dropWhile (fun c => !isNl c) with
      | nil =>
        exfalso
        have hall : ∀ x ∈ cs.takeWhile pyIsSpace, ¬ isNl x = true := by
          intro x hx
          have h := List.dropWhile_eq_nil_iff.mp hnr x hx
          revert h
          cases isNl x <;> simp
        have h0 : nlCount (cs.takeWhile pyIsSpace) = 0 := List.countP_eq_zero.mpr hall
        omega
      | cons e z =>
        have he : isNl e = true := by
          have h := head_dropWhile_false hnr
          revert h
          cases isNl e <;> simp
        have hnlrun_ws : ∀ x ∈ e :: z, pyIsSpace x = true := by
          intro x hx
          refine htw_ws x ?_
          have hsub : List.Sublist ((cs.takeWhile pyIsSpace).dropWhile (fun c => !isNl c))
              (cs.takeWhile pyIsSpace) := List.dropWhile_sublist _
          rw [hnr] at hsub
          exact hsub.mem hx
        have hL1 : ((cs.takeWhile pyIsSpace).takeWhile (fun c => !isNl c)).length +
            (z.length + 1) = (cs.takeWhile pyIsSpace).length := by
          have h := congrArg List.length htwsplit
          rw [hnr] at h
          simpa [List.length_append, List.length_cons] using h
        have hsp0_cnt : nlCount ((cs.takeWhile pyIsSpace).takeWhile (fun c => !isNl c)) = 0 :=
          List.countP_eq_zero.mpr (fun x hx => by simp [hsp0_nl x hx])
        have hrun_cnt : 3 ≤ nlCount (e :: z) := by
          have h : nlCount ((cs.takeWhile pyIsSpace).takeWhile (fun c => !isNl c)) +
              nlCount (e :: z) = nlCount (cs.takeWhile pyIsSpace) := by
            unfold nlCount
            rw [← List.countP_append, ← hnr, htwsplit]
          omega
        have hcs : cs = (cs.takeWhile pyIsSpace).takeWhile (fun c => !isNl c) ++
            ((e :: z) ++ cs.dropWhile pyIsSpace) := by
          rw [← List.append_assoc, ← hnr, htwsplit, hsplit]
        have htwrest : (cs.dropWhile pyIsSpace).takeWhile pyIsSpace = [] := by
          rcases hrest with hr | ⟨d, t', hr, hd⟩
          · rw [hr]; rfl
          · rw [hr]; exact List.takeWhile_cons_of_neg (by simp [hd])
        rw [hcs, sub1_skip_nlfree _ _ N hsp0_nl (by omega)]
        have hrun' : ((e :: z) ++ cs.dropWhile pyIsSpace).takeWhile pyIsSpace = e :: z := by
          rw [takeWhile_append_all _ hnlrun_ws, htwrest, List.append_nil]
        obtain ⟨K', hK'⟩ : ∃ K',
            N - ((cs.takeWhile pyIsSpace).takeWhile (fun c => !isNl c)).length = K' + 1 := by
          refine ⟨N - ((cs.takeWhile pyIsSpace).takeWhile (fun c => !isNl c)).length - 1, ?_⟩
          omega
        have hK'ge : (z.length + 1) + (cs.dropWhile pyIsSpace).length ≤ K' + 1 := by
          omega
        rw [List.cons_append] at hrun'
        rw [hK', List.cons_append,
          sub1_cons_pos he (by rw [hrun']; exact hrun_cnt), hrun']
        have hdrop : (e :: (z ++ cs.dropWhile pyIsSpace)).drop (e :: z).length =
            cs.dropWhile pyIsSpace := by
          rw [← List.cons_append, List.drop_left]
        rw [hdrop]
        obtain ⟨σ, hσ, htsp_nl⟩ := afterLastNl_decomp (e :: z)
        have htsp_ws : ∀ x ∈ afterLastNl (e :: z), pyIsSpace x = true := by
          intro x hx
          refine hnlrun_ws x ?_
          rw [hσ]
          exact List.mem_append.mpr (Or.inr hx)
        have htsp_cnt : nlCount (afterLastNl (e :: z)) = 0 :=
          List.countP_eq_zero.mpr (fun x hx => by simp [htsp_nl x hx])
        have hσ_ne : σ ≠ [] := by
          intro hσnil
          rw [hσnil, List.nil_append] at hσ
          rw [hσ] at hrun_cnt
          omega
        have hσ_len : σ.length + (afterLastNl (e :: z)).length = z.length + 1 := by
          have h := congrArg List.length hσ
          simpa [List.length_append, List.length_cons] using h.symm
        have htsp_lt : (afterLastNl (e :: z)).length < z.length + 1 := by
          have : 1 ≤ σ.length := by
            cases hσc : σ with
            | nil => exact absurd hσc hσ_ne
            | cons _ _ => simp [hσc]
          omega
        rw [sub1_skip_nlfree _ _ K' htsp_nl (by omega)]
        have hws_s : ∀ x ∈ (cs.takeWhile pyIsSpace).takeWhile (fun c => !isNl c) ++
            '\n' :: '\n' :: afterLastNl (e :: z), pyIsSpace x = true := by
          intro x hx
          rcases List.mem_append.mp hx with hx | hx
          · exact hsp0_ws x hx
          · rcases List.mem_cons.mp hx with rfl | hx2
            · decide
            · rcases List.mem_cons.mp hx2 with rfl | hx3
              · decide
              · exact htsp_ws x hx3
        have hcnt_s : nlCount ((cs.takeWhile pyIsSpace).takeWhile (fun c => !isNl c) ++
            '\n' :: '\n' :: afterLastNl (e :: z)) ≤ 2 := by
          unfold nlCount
          rw [List.countP_append, List.countP_cons, List.countP_cons]
          have h1 : nlCount ((cs.takeWhile pyIsSpace).takeWhile (fun c => !isNl c)) = 0 :=
            hsp0_cnt
          have h2 : nlCount (afterLastNl (e :: z)) = 0 := htsp_cnt
          unfold nlCount at h1 h2
          simp [h1, h2, show isNl '\n' = true from rfl]
        rcases hrest with hr | ⟨d, t', hr, hd⟩
        · rw [hr, sub1_nil]
          have h := noTriple_append_ws _ []
            hws_s hcnt_s (Or.inl rfl) rfl
          simpa [List.append_assoc] using h
        · rw [hr]
          have hlen3 : ((cs.takeWhile pyIsSpace).takeWhile (fun c => !isNl c)).length +
              ((z.length + 1) + (t'.length + 1)) = cs.length := by
            rw [hr] at hlen_split
            simp [List.length_cons] at hlen_split
            omega
          obtain ⟨M2, hM2⟩ : ∃ M2, K' - (afterLastNl (e :: z)).length = M2 + 1 := by
            refine ⟨K' - (afterLastNl (e :: z)).length - 1, ?_⟩
            rw [hr] at hlen_split
            simp [List.length_cons] at hlen_split
            omega
          rw [hM2, sub1_cons_neg (by simp [isNl_false_of_not_ws hd])]
          have hnt : noTriple (d :: sub1 M2 t') = true := by
            rw [noTriple, Bool.and_eq_true]
            refine ⟨by simp [isNl_false_of_not_ws hd], ?_⟩
            refine IH t'.length (by omega) M2 t' le_rfl ?_
            rw [hr] at hlen_split
            simp [List.length_cons] at hlen_split
            omega
          have h := noTriple_append_ws _ _ hws_s hcnt_s (Or.inr ⟨d, _, rfl, hd⟩) hnt
          simpa [List.append_assoc] using h

/-- Dropping a prefix preserves the absence of three-newline runs. -/
lemma noTriple_dropWhile (p : Char → Bool) : ∀ (l : List Char),
    noTriple l = true → noTriple (l.dropWhile p) = true := by
  intro l
  induction l with
  | nil => intro h; exact h
  | cons a l' ih =>
    intro h
    rw [noTriple, Bool.and_eq_true] at h
    by_cases hp : p a = true
    · rw [List.dropWhile_cons_of_pos hp]
      exact ih h.2
    · rw [List.dropWhile_cons_of_neg hp, noTriple, Bool.and_eq_true]
      exact h

/-- takeWhile commutes with take. -/
lemma takeWhile_take_comm (p : Char → Bool) : ∀ (l : List Char) (n : Nat),
    (l.take n).takeWhile p = (l.takeWhile p).take n := by
  intro l
  induction l with
  | nil => intro n; simp
  | cons a l' ih =>
    intro n
    cases n with
    | zero => simp
    | succ n =>
      by_cases hp : p a = true
      · rw [List.take_succ_cons, List.takeWhile_cons_of_pos hp,
          List.takeWhile_cons_of_pos hp, List.take_succ_cons, ih]
      · rw [List.take_succ_cons, List.takeWhile_cons_of_neg hp,
          List.takeWhile_cons_of_neg hp]
        simp

/-- Truncation cannot raise the newline count. -/
lemma nlCount_take_le (l : List Char) (n : Nat) : nlCount (l.take n) ≤ nlCount l :=
  List.Sublist.countP_le _ (List.take_sublist n l)

/-- Truncation preserves the absence of three-newline runs. -/
lemma noTriple_take : ∀ (l : List Char) (n : Nat),
    noTriple l = true → noTriple (l.take n) = true := by
  intro l
  induction l with
  | nil => intro n h; simpa using h
  | cons a l' ih =>
    intro n h
    cases n with
    | zero => rfl
    | succ n =>
      rw [noTriple, Bool.and_eq_true] at h
      rw [List.take_succ_cons, noTriple, Bool.and_eq_true]
      refine ⟨?_, ih n h.2⟩
      by_cases hna : isNl a = true
      · have hc : (isNl a &&
            decide (3 ≤ nlCount ((a :: l').takeWhile pyIsSpace))) = false :=
          bool_neg_true h.1
        have hcnt : nlCount ((a :: l').takeWhile pyIsSpace) ≤ 2 := by
          rcases Bool.and_eq_false_iff.mp hc with hx | hx
          · rw [hna] at hx; cases hx
          · have := of_decide_eq_false hx
            omega
        have hle : nlCount ((a :: l'.take n).takeWhile pyIsSpace) ≤
            nlCount ((a :: l').takeWhile pyIsSpace) := by
          have heq : (a :: l'.take n) = (a :: l').take (n + 1) := by
            rw [List.take_succ_cons]
          rw [heq, takeWhile_take_comm]
          exact nlCount_take_le _ _
        have hd : decide (3 ≤ nlCount ((a :: l'.take n).takeWhile pyIsSpace)) = false :=
          decide_eq_false (by omega)
        simp [hd]
      · have hna' : isNl a = false := by revert hna; cases isNl a <;> simp
        simp [hna']

/-- Removing trailing characters is a truncation. -/
lemma dropTrailing_eq_take (p : Char → Bool) (l : List Char) :
    ∃ k, dropTrailing p l = l.take k := by
  have hsplit : l = (l.reverse.dropWhile p).reverse ++ (l.reverse.takeWhile p).reverse := by
    rw [← List.reverse_append, List.takeWhile_append_dropWhile, List.reverse_reverse]
  refine ⟨(l.reverse.dropWhile p).reverse.length, ?_⟩
  calc dropTrailing p l = (l.reverse.dropWhile p).reverse := rfl
    _ = ((l.reverse.dropWhile p).reverse ++
          (l.reverse.takeWhile p).reverse).take (l.reverse.dropWhile p).reverse.length :=
        (List.take_left _ _).symm
    _ = l.take (l.reverse.dropWhile p).reverse.length := by rw [← hsplit]

/-- Dropping a prefix preserves the absence of the third pattern. -/
lemma hasPnl_dropWhile (p : Char → Bool) : ∀ (l : List Char),
    hasPnl l = false → hasPnl (l.dropWhile p) = false := by
  intro l
  induction l with
  | nil => intro h; exact h
  | cons a l' ih =>
    intro h
    rw [hasPnl] at h
    obtain ⟨h1, h2⟩ := Bool.or_eq_false_iff.mp h
    by_cases hp : p a = true
    · rw [List.dropWhile_cons_of_pos hp]
      exact ih h2
    · rw [List.dropWhile_cons_of_neg hp, hasPnl]
      exact Bool.or_eq_false_iff.mpr ⟨h1, h2⟩

/-- Truncation cannot create a leading newline modulo spaces and tabs. -/
lemma nlAfterSpaces_take : ∀ (l : List Char) (n : Nat),
    nlAfterSpaces l = false → nlAfterSpaces (l.take n) = false := by
  intro l
  induction l with
  | nil => intro n h; simpa using h
  | cons a l' ih =>
    intro n h
    cases n with
    | zero => rfl
    | succ n =>
      rw [List.take_succ_cons]
      by_cases hsp : spaceTab a = true
      · rw [nlAfterSpaces_cons_pos hsp] at h
        rw [nlAfterSpaces_cons_pos hsp]
        exact ih n h
      · have hsp' : spaceTab a = false := by revert hsp; cases spaceTab a <;> simp
        rw [nlAfterSpaces_cons_neg hsp'] at h
        rw [nlAfterSpaces_cons_neg hsp']
        exact h

/-- Truncation preserves the absence of the third pattern. -/
lemma hasPnl_take : ∀ (l : List Char) (n : Nat),
    hasPnl l = false → hasPnl (l.take n) = false := by
  intro l
  induction l with
  | nil => intro n h; simpa using h
  | cons a l' ih =>
    intro n h
    cases n with
    | zero => rfl
    | succ n =>
      rw [hasPnl] at h
      obtain ⟨h1, h2⟩ := Bool.or_eq_false_iff.mp h
      rw [List.take_succ_cons, hasPnl]
      refine Bool.or_eq_false_iff.mpr ⟨?_, ih n h2⟩
      by_cases htp : termPunct a = true
      · have hnas : nlAfterSpaces l' = false := by
          rcases Bool.and_eq_false_iff.mp h1 with hx | hx
          · rw [htp] at hx; cases hx
          · exact hx
        rw [htp, nlAfterSpaces_take l' n hnas]
        rfl
      · have htp' : termPunct a = false := by revert htp; cases termPunct a <;> simp
        rw [htp']
        rfl

/-- dropWhile is idempotent. -/
lemma dropWhile_idem (p : Char → Bool) (l : List Char) :
    (l.dropWhile p).dropWhile p = l.dropWhile p := by
  cases hd : l.dropWhile p with
  | nil => rfl
  | cons d t =>
    rw [List.dropWhile_cons_of_neg]
    simp [head_dropWhile_false hd]

/-- dropTrailing is idempotent. -/
lemma dropTrailing_idem (p : Char → Bool) (l : List Char) :
    dropTrailing p (dropTrailing p l) = dropTrailing p l := by
  unfold dropTrailing
  rw [List.reverse_reverse, dropWhile_idem]

/-- After a leading strip, removing trailing characters leaves nothing for
a second leading strip. -/
lemma dropWhile_dropTrailing (p : Char → Bool) (l : List Char) :
    (dropTrailing p (l.dropWhile p)).dropWhile p = dropTrailing p (l.dropWhile p) := by
  obtain ⟨k, hk⟩ := dropTrailing_eq_take p (l.dropWhile p)
  cases hdt : dropTrailing p (l.dropWhile p) with
  | nil => rfl
  | cons d t =>
    rw [hdt] at hk
    rw [List.dropWhile_cons_of_neg]
    cases hy : l.dropWhile p with
    | nil => rw [hy] at hk; simp at hk
    | cons c y' =>
      rw [hy] at hk
      cases k with
      | zero => simp at hk
      | succ k =>
        rw [List.take_succ_cons] at hk
        obtain ⟨hdc, -⟩ := List.cons.inj hk
        subst hdc
        simp [head_dropWhile_false hy]

/-- Python strip is idempotent. -/
lemma pyStrip_idem (l : List Char) : pyStrip (pyStrip l) = pyStrip l := by
  unfold pyStrip
  rw [dropWhile_dropTrailing pyIsSpace l, dropTrailing_idem]

/-- Stripping preserves the absence of three-newline runs. -/
lemma noTriple_pyStrip {l : List Char} (h : noTriple l = true) :
    noTriple (pyStrip l) = true := by
  unfold pyStrip
  obtain ⟨k, hk⟩ := dropTrailing_eq_take pyIsSpace (l.dropWhile pyIsSpace)
  rw [hk]
  exact noTriple_take _ k (noTriple_dropWhile pyIsSpace l h)

/-- Stripping preserves the absence of the third pattern. -/
lemma hasPnl_pyStrip {l : List Char} (h : hasPnl l = false) :
    hasPnl (pyStrip l) = false := by
  unfold pyStrip
  obtain ⟨k, hk⟩ := dropTrailing_eq_take pyIsSpace (l.dropWhile pyIsSpace)
  rw [hk]
  exact hasPnl_take _ k (hasPnl_dropWhile pyIsSpace l h)

/-- Claim C3, counterexample: on the three-character text full-width
period, newline, letter a, one cleaning yields period newline newline a,
and a second cleaning inserts a further newline, so clean_text is not
idempotent. -/
theorem claim3_counterexample :
    clean_text (clean_text ("。\na").data) ≠ clean_text ("。\na").data := by
  decide

/-- Claim C3, amended: clean_text is idempotent on every input with no
occurrence of the paragraph-break pattern, that is no terminal punctuation
character followed by only spaces and tabs and then a newline.  The
counterexample shows idempotence can fail on an input with such an
occurrence. -/
theorem claim3_clean_idem (x : List Char) (h : hasPnl x = false) :
    clean_text (clean_text x) = clean_text x := by
  have h1 : hasPnl (sub1 x.length x) = false := hasPnl_sub1 x.length x h
  have hnt1 : noTriple (sub1 x.length x) = true :=
    noTriple_sub1 x.length x.length x le_rfl le_rfl
  have hclean : clean_text x = pyStrip (sub1 x.length x) := by
    rw [clean_text_eq, sub3_id _ _ h1]
  have hy_nt : noTriple (pyStrip (sub1 x.length x)) = true := noTriple_pyStrip hnt1
  have hy_pnl : hasPnl (pyStrip (sub1 x.length x)) = false := hasPnl_pyStrip h1
  rw [hclean, clean_text_eq, sub1_id _ _ hy_nt, sub3_id _ _ hy_pnl, pyStrip_idem]

/-- Witness for the amended claim C3: a text with newline runs and a
terminal punctuation character not preceding a line break. -/
theorem claim3_clean_idem_witness :
    clean_text (clean_text ("第一章\n\n\n\n总则。x").data) =
      clean_text ("第一章\n\n\n\n总则。x").data :=
  claim3_clean_idem _ (by decide)

end PdfToMd
